import Mathlib

/-!
Verification development for the glucifer `Store`/`Figure` state-reconciliation
layer (`src/glucifer/_glucifer.py` and `src/glucifer/pylab/_drawing.py`).

The Python property dictionaries are modelled as insertion-ordered association
lists (`Props`), matching the semantics of Python `dict`: assignment to an
existing key replaces the value in place, assignment to a fresh key appends,
`update` folds assignments left to right, lookup returns the first (unique)
binding.  Drawing objects are mutable Python objects shared between the store's
global list `Store._objects` and the per-figure active list, so they are
modelled as a heap `Nat → ObjData` indexed by object identity; the two lists
hold identities.  Fallible dictionary indexing (`d["k"]`, `xs[-1]`,
`views[0]`) is modelled with `Option`/`Except`.
-/

namespace Glucifer

/-- Property values as they occur in the state dictionaries: strings, numbers,
booleans and `None`. -/
inductive PVal where
  | str (s : String)
  | num (n : Int)
  | bool (b : Bool)
  | null
deriving DecidableEq

/-- A Python dict from property names to values: insertion-ordered association
list with unique keys. -/
abbrev Props := List (String × PVal)

/-- Python truthiness of a property value (`if v:`). -/
def truthy : PVal → Bool
  | .str s => !s.isEmpty
  | .num n => n != 0
  | .bool b => b
  | .null => false

/-- Truthiness of an optional value, as in `d.get(k)`: a missing key is `None`,
hence falsy. -/
def truthyOpt : Option PVal → Bool
  | some v => truthy v
  | none => false

/-- Dictionary lookup `d.get(k)` / `d[k]` (first binding). -/
def getKey? : Props → String → Option PVal
  | [], _ => none
  | (k1, v) :: rest, k => if k1 = k then some v else getKey? rest k

/-- Key membership `k in d`. -/
def hasKey (p : Props) (k : String) : Bool :=
  (getKey? p k).isSome

/-- In-place replacement of the binding of `k`, used by `setKey`. -/
def repl (k : String) (v : PVal) (q : String × PVal) : String × PVal :=
  if q.1 = k then (k, v) else q

/-- Dictionary assignment `d[k] = v`: replace in place when the key is present,
append otherwise. -/
def setKey (p : Props) (k : String) (v : PVal) : Props :=
  if hasKey p k then p.map (repl k v)
  else p ++ [(k, v)]

/-- Dictionary merge `d.update(e)`: fold the assignments of `e` into `d`,
left to right (last write wins per key). -/
def dictUpdate (d e : Props) : Props :=
  e.foldl (fun acc q => setKey acc q.1 q.2) d

/-- First-defined choice on optional values, used to state last-write-wins
lookups. -/
def orElseO (a b : Option PVal) : Option PVal :=
  match a with
  | some v => some v
  | none => b

/-- The per-object data of a drawing object: the native type tag `_dr.type`,
the optional nested colour bar `_colourBar`, the property dict `properties`
and the back reference `parent`. -/
structure ObjData where
  typeTag : String
  colourBar : Option Nat
  props : Props
  parent : Option Nat

/-- The mutable object heap: object identity to object data. -/
abbrev Heap := Nat → ObjData

/-- A `Store`'s mutable state: the heap plus the accumulated global object
list `self._objects` (as identities, in insertion order). -/
structure Sys where
  heap : Heap
  store : List Nat

/-- Mutate `obj.parent`. -/
def setParent (h : Heap) (id : Nat) (p : Option Nat) : Heap :=
  fun j => if j = id then { h j with parent := p } else h j

/-- Mutate `obj.properties`. -/
def setProps (h : Heap) (id : Nat) (ps : Props) : Heap :=
  fun j => if j = id then { h j with props := ps } else h j

/-- Result of the merge loop of `Store._generate` (lines 180-191): final heap,
final per-figure active list (`objects`, which the loop itself extends with
nested colour bars), final global list (`self._objects`) and whether the loop
ran to completion within the supplied fuel. -/
structure MergeOut where
  heap : Heap
  active : List Nat
  store : List Nat
  done : Bool

/-- The first loop of `Store._generate`:

    for obj in objects:
        if obj._colourBar:
            objects.append(obj._colourBar)
            obj._colourBar.parent = obj
        obj.parent = None
        if obj not in self._objects:
            self._objects.append(obj)

Python iterates by index over the growing list, so appended colour bars are
themselves visited.  The recursion is driven by an explicit fuel because a
pathological heap (an object that is its own colour bar) would make the Python
loop diverge; `done` records that the loop exited normally. -/
def mergeLoop : Nat → Heap → List Nat → List Nat → Nat → MergeOut
  | 0, h, a, s, _ => ⟨h, a, s, false⟩
  | fuel + 1, h, a, s, i =>
    if i < a.length then
      let oid := a.getD i 0
      match (h oid).colourBar with
      | some cb =>
        let h1 := setParent h cb (some oid)
        let h2 := setParent h1 oid none
        let s2 := if oid ∈ s then s else s ++ [oid]
        mergeLoop fuel h2 (a ++ [cb]) s2 (i + 1)
      | none =>
        let h2 := setParent h oid none
        let s2 := if oid ∈ s then s else s ++ [oid]
        mergeLoop fuel h2 a s2 (i + 1)
    else ⟨h, a, s, true⟩

/-- Two heaps agreeing on every object's `_colourBar` field; the merge loop
reads nothing else of the heap. -/
def cbEq (h k : Heap) : Prop :=
  ∀ id, (h id).colourBar = (k id).colourBar

/-- The default name assigned at global index `o` (lines 198-202):
`ColourBar_<o>` when the properties hold a truthy `colourbar` entry, else the
native type tag with its three-character `luc` head removed, `<TypeTag>_<o>`. -/
def nameFor (od : ObjData) (o : Nat) : String :=
  if truthyOpt (getKey? od.props "colourbar") then "ColourBar_" ++ toString o
  else od.typeTag.drop 3 ++ "_" ++ toString o

/-- The default-naming loop of `Store._generate` (lines 195-202), iterating
over `self._objects` with its running index `o`; objects that already carry a
`name` property are left untouched. -/
def nameLoop (h : Heap) : List Nat → Nat → Heap
  | [], _ => h
  | id :: rest, o =>
    let h2 := if hasKey (h id).props "name" then h
              else setProps h id (setKey (h id).props "name" (.str (nameFor (h id) o)))
    nameLoop h2 rest (o + 1)

/-- `Store._generate`'s default-name assignment over the whole global list. -/
def assignNames (h : Heap) (s : List Nat) : Heap :=
  nameLoop h s 0

/-- The visibility formula of line 215:
`bool(obj in objects or obj.parent and obj.parent in objects)`. -/
def visFlag (h : Heap) (a : List Nat) (id : Nat) : Bool :=
  decide (id ∈ a) ||
    (match (h id).parent with
     | some p => decide (p ∈ a)
     | none => false)

/-- The live-mode visibility loop of `Store._generate` (lines 213-215): for
every object of the global list, set `properties["visible"]` from
`visFlag`. -/
def visLoop (a : List Nat) : Heap → List Nat → Heap
  | h, [] => h
  | h, id :: rest =>
    visLoop a (setProps h id (setKey (h id).props "visible" (.bool (visFlag h a id)))) rest

/-- One figure state of the persisted state document: the figure name keyed by
`lucDatabase_WriteState`, the figure properties, the view list and the object
descriptor list. -/
structure FigureState where
  figure : String
  properties : Props
  views : List Props
  objects : List Props
deriving DecidableEq

/-- `Store._get_state` (lines 273-288): properties and a single view both from
the figure's property dict, objects as the property dicts of the global list,
combined with the figure name the caller hands to `lucDatabase_WriteState`. -/
def get_state (h : Heap) (s : List Nat) (figname : String) (props : Props) : FigureState :=
  { figure := figname
    properties := props
    views := [props]
    objects := s.map fun id => (h id).props }

/-- The heap transformation of the live branch after the merge loop: default
naming followed by the visibility loop. -/
def livePhase (h : Heap) (s a : List Nat) : Heap :=
  visLoop a (assignNames h s) s

/-- Result of a live-mode `Store._generate`: the new store state, the final
active list, the figure state written to the database, and the merge-loop
completion flag. -/
structure LiveOut where
  sys : Sys
  active : List Nat
  state : FigureState
  done : Bool

/-- Live-mode `Store._generate` (lines 178-235), with the native database and
rendering calls elided: merge the active list into the store, assign default
names, set visibilities, and emit the figure state produced by
`Store._get_state`. -/
def generateLive (sys : Sys) (figname : String) (a : List Nat) (props : Props)
    (fuel : Nat) : LiveOut :=
  let m := mergeLoop fuel sys.heap a sys.store 0
  let h3 := livePhase m.heap m.store m.active
  { sys := ⟨h3, m.store⟩
    active := m.active
    state := get_state h3 m.store figname props
    done := m.done }

/-- Figure-state search of the view-only branch (lines 241-247): the first
state whose `figure` field equals the requested name, else the last state of
the document (`states[-1]`); `none` models the error on an empty document. -/
def findState (states : List FigureState) (figname : String) : Option FigureState :=
  match states.find? (fun st => decide (st.figure = figname)) with
  | some st => some st
  | none => states.getLast?

/-- One pass of the inner override loop (lines 254-258) for a single local
override `ov` against the current descriptor `d`:
`if dbobj["name"] == obj.properties["name"]: dbobj.update(...); dbobj["visible"] = True`.
A missing `name` key on either side is a Python `KeyError`, modelled as
`none`. -/
def reconcileStep (d ov : Props) : Option Props :=
  match getKey? d "name", getKey? ov "name" with
  | some dn, some vn =>
    if dn = vn then some (setKey (dictUpdate d ov) "visible" (.bool true))
    else some d
  | _, _ => none

/-- The inner override loop over all local overrides. -/
def reconcileLoop (d : Props) : List Props → Option Props
  | [] => some d
  | ov :: rest =>
    match reconcileStep d ov with
    | some d2 => reconcileLoop d2 rest
    | none => none

/-- Reconciliation of one persisted descriptor (lines 252-258): default it to
hidden, then merge every matching local override. -/
def reconcileOne (dbobj : Props) (ovs : List Props) : Option Props :=
  reconcileLoop (setKey dbobj "visible" (.bool false)) ovs

/-- Reconciliation of every persisted descriptor, in order. -/
def reconcileAll : List Props → List Props → Option (List Props)
  | [], _ => some []
  | d :: rest, ovs =>
    match reconcileOne d ovs with
    | some d2 =>
      match reconcileAll rest ovs with
      | some res => some (d2 :: res)
      | none => none
    | none => none

/-- The object part of the view-only branch (lines 249-262): when local
overrides exist, reconcile each persisted descriptor against them; when none
were passed, simply mark every persisted descriptor visible. -/
def reconcileObjects (dbobjs ovs : List Props) : Option (List Props) :=
  if ovs.length ≠ 0 then reconcileAll dbobjs ovs
  else some (dbobjs.map fun d => setKey d "visible" (.bool true))

/-- The property merge of the view-only branch (lines 266-269): merge the
caller-supplied figure properties into the state's `properties` dict and into
`views[0]`; an empty view list is the `IndexError` case, modelled `none`. -/
def mergeFigState (st : FigureState) (props : Props) : Option FigureState :=
  match st.views with
  | [] => none
  | v :: rest =>
    some { st with properties := dictUpdate st.properties props
                   views := dictUpdate v props :: rest }

/-- Python exception kinds raised by the modelled paths. -/
inductive PyErr where
  | typeError
  | keyError
  | indexError
deriving DecidableEq

/-- `Store._read_state` (lines 290-308): returns `None` when the lavavu module
is absent or the rank is not the coordinating rank, otherwise the parsed
persisted document (parsing by the native layer is elided and the document is
an input). -/
def read_state (lavavuPresent : Bool) (rank : Nat) (doc : List FigureState) :
    Option (List FigureState) :=
  if lavavuPresent = false ∨ rank > 0 then none else some doc

/-- View-only `Store._generate` (lines 178-202 and 237-271): the merge and
naming phases run unconditionally, then the persisted document is read and
reconciled.  Iterating the `None` returned by `_read_state` on a
non-coordinating rank is Python's `TypeError`. -/
def generateViewOnly (lavavuPresent : Bool) (rank : Nat) (sys : Sys) (figname : String)
    (a : List Nat) (props : Props) (doc : List FigureState) (fuel : Nat) :
    Except PyErr (Sys × FigureState) :=
  let m := mergeLoop fuel sys.heap a sys.store 0
  let h2 := assignNames m.heap m.store
  match read_state lavavuPresent rank doc with
  | none => .error .typeError
  | some states =>
    match findState states figname with
    | none => .error .indexError
    | some st =>
      match reconcileObjects st.objects (m.active.map fun id => (h2 id).props) with
      | none => .error .keyError
      | some objs =>
        match mergeFigState { st with objects := objs } props with
        | none => .error .indexError
        | some st2 => .ok (⟨h2, m.store⟩, st2)

/-- `Store.save` (lines 150-165): a no-op returning `None` away from rank 0;
on rank 0 the filename gains a `.gldb` extension unless one is present. -/
def store_save (rank : Nat) (filename : String) : Option String :=
  if rank = 0 then
    some (if filename.toLower.endsWith ".gldb" ∨ filename.toLower.endsWith ".db" then filename
          else filename ++ ".gldb")
  else none

/-- Observable behaviour of `Figure.send_command`: number of HTTP attempts,
the sleep durations (seconds) between them, and whether some attempt
delivered the command.  The function never lets an exception escape. -/
structure SendTrace where
  attempts : Nat
  delays : List Nat
  delivered : Bool
deriving DecidableEq

/-- The recursive call `send_command(cmd, False)`: one attempt, no further
retry; a failure is logged and dropped. -/
def sendNoRetry (ok : Bool) : SendTrace :=
  if ok then ⟨1, [], true⟩ else ⟨1, [], false⟩

/-- `Figure.send_command` (lines 746-772) with `retry=True`: guarded by the
lavavu module and rank 0; on failure of the first attempt, sleep one second
and try exactly once more via the `retry=False` call.  `ok1`, `ok2` are the
outcomes of the successive `urlopen` attempts. -/
def send_command (lavavuPresent : Bool) (rank : Nat) (cmd : String) (ok1 ok2 : Bool) :
    SendTrace :=
  if lavavuPresent ∧ rank = 0 then
    if ok1 then ⟨1, [], true⟩
    else
      let t := sendNoRetry ok2
      ⟨1 + t.attempts, 1 :: t.delays, t.delivered⟩
  else ⟨0, [], false⟩

/-- `Drawing._updateProperties` (`_drawing.py` lines 163-170): with
`overwrite=True` merge the new properties over the existing ones; otherwise
keep only the truthy existing entries and merge them over the incoming
defaults. -/
def updateProperties (props newProps : Props) (overwrite : Bool) : Props :=
  if overwrite then dictUpdate props newProps
  else dictUpdate newProps (props.filter fun q => truthy q.2)

/-! ### Concrete example inputs used for closed evaluations -/

/-- A `lucScalarField` drawing object with no user-set properties. -/
def exScalar : ObjData :=
  { typeTag := "lucScalarField", colourBar := none, props := [], parent := none }

/-- A drawing object with a user-assigned name. -/
def exNamed : ObjData :=
  { typeTag := "lucMeshViewer", colourBar := none,
    props := [("name", .str "A")], parent := none }

/-- A store with an empty global list over a heap of `exScalar` objects. -/
def exSys : Sys := { heap := fun _ => exScalar, store := [] }

/-- A store already holding the named object `0`. -/
def exSysNamed : Sys := { heap := fun _ => exNamed, store := [0] }

/-- A persisted figure state named `Figure_1`. -/
def exFig1 : FigureState :=
  { figure := "Figure_1", properties := [], views := [[]],
    objects := [[("name", .str "A"), ("visible", .bool true)]] }

/-- A persisted figure state named `Figure_2`. -/
def exFig2 : FigureState :=
  { figure := "Figure_2", properties := [], views := [[]], objects := [] }

/-- Persisted descriptors of the spec scenario: `A` visible, `B` hidden. -/
def exDb : List Props :=
  [[("name", .str "A"), ("visible", .bool true)],
   [("name", .str "B"), ("visible", .bool false)]]

/-- The spec scenario's single local override recolouring `B`. -/
def exOv : List Props :=
  [[("name", .str "B"), ("colour", .str "red")]]

/-! ### Dictionary lemmas -/

theorem getKey?_append (p q : Props) (k : String) :
    getKey? (p ++ q) k = orElseO (getKey? p k) (getKey? q k) := by
  induction p with
  | nil => simp [getKey?, orElseO]
  | cons hd tl ih =>
    by_cases h : hd.1 = k
    · simp [getKey?, h, orElseO]
    · simpa [getKey?, h] using ih

theorem getKey?_eq_none_iff (p : Props) (k : String) :
    getKey? p k = none ↔ ∀ q ∈ p, q.1 ≠ k := by
  induction p with
  | nil => simp [getKey?]
  | cons hd tl ih =>
    by_cases h : hd.1 = k
    · simp [getKey?, h]
    · simp [getKey?, h, ih]

theorem not_hasKey_iff (p : Props) (k : String) :
    ¬hasKey p k = true ↔ getKey? p k = none := by
  cases h : getKey? p k <;> simp [hasKey, h]

theorem repl_eq (k : String) (v : PVal) (k1 : String) (v1 : PVal) (h : k1 = k) :
    repl k v (k1, v1) = (k, v) :=
  if_pos h

theorem repl_ne (k : String) (v : PVal) (k1 : String) (v1 : PVal) (h : ¬k1 = k) :
    repl k v (k1, v1) = (k1, v1) :=
  if_neg h

theorem getKey?_map_repl_self (p : Props) (k : String) (v : PVal)
    (h : hasKey p k = true) :
    getKey? (p.map (repl k v)) k = some v := by
  induction p with
  | nil => simp [hasKey, getKey?] at h
  | cons hd tl ih =>
    obtain ⟨k1, v1⟩ := hd
    simp only [List.map_cons]
    by_cases hk : k1 = k
    · rw [repl_eq k v k1 v1 hk]
      simp [getKey?]
    · have h' : hasKey tl k = true := by
        simpa [hasKey, getKey?, hk] using h
      rw [repl_ne k v k1 v1 hk]
      simpa [getKey?, hk] using ih h'

theorem getKey?_map_repl_ne (p : Props) (k v) (k' : String) (h : k' ≠ k) :
    getKey? (p.map (repl k v)) k' = getKey? p k' := by
  induction p with
  | nil => simp [getKey?]
  | cons hd tl ih =>
    obtain ⟨k1, v1⟩ := hd
    simp only [List.map_cons]
    by_cases hk : k1 = k
    · rw [repl_eq k v k1 v1 hk]
      have hne : ¬k = k' := fun e => h e.symm
      have hne1 : ¬k1 = k' := by rw [hk]; exact hne
      simp [getKey?, hne, hne1, ih]
    · rw [repl_ne k v k1 v1 hk]
      by_cases hk' : k1 = k'
      · simp [getKey?, hk']
      · simp [getKey?, hk', ih]

theorem getKey?_setKey_self (p : Props) (k : String) (v : PVal) :
    getKey? (setKey p k v) k = some v := by
  unfold setKey
  by_cases h : hasKey p k
  · simp [h, getKey?_map_repl_self p k v h]
  · have hnone : getKey? p k = none := (not_hasKey_iff p k).mp h
    simp [h, getKey?_append, hnone, orElseO, getKey?]

theorem getKey?_setKey_ne (p : Props) (k v) (k' : String) (h : k' ≠ k) :
    getKey? (setKey p k v) k' = getKey? p k' := by
  unfold setKey
  by_cases hk : hasKey p k
  · simp [hk, getKey?_map_repl_ne p k v k' h]
  · have hne : ¬k = k' := fun e => h e.symm
    simp [hk, getKey?_append, getKey?, hne, orElseO]
    cases getKey? p k' <;> simp

theorem hasKey_setKey_ne (p : Props) (k v) (k' : String) (h : k' ≠ k) :
    hasKey (setKey p k v) k' = hasKey p k' := by
  simp [hasKey, getKey?_setKey_ne p k v k' h]

theorem map_repl_eq_self (p : Props) (k : String) (v : PVal)
    (h : getKey? p k = none) : p.map (repl k v) = p := by
  have hall := (getKey?_eq_none_iff p k).mp h
  have hcg := List.map_congr_left (l := p) (f := repl k v) (g := id)
    (fun q hq => by obtain ⟨a, b⟩ := q; simp [repl_ne k v a b (hall (a, b) hq)])
  simpa using hcg

theorem setKey_idem (p : Props) (k : String) (v : PVal) :
    setKey (setKey p k v) k v = setKey p k v := by
  have hmem : hasKey (setKey p k v) k = true := by
    simp [hasKey, getKey?_setKey_self]
  by_cases h : hasKey p k
  · have hsk : setKey p k v = p.map (repl k v) := by
      unfold setKey; simp [h]
    rw [hsk]
    have hmem' : hasKey (p.map (repl k v)) k = true := hsk ▸ hmem
    unfold setKey
    rw [if_pos hmem', List.map_map]
    refine List.map_congr_left ?_
    intro q _
    obtain ⟨a, b⟩ := q
    by_cases hq : a = k
    · simp [Function.comp, repl_eq k v a b hq, repl_eq k v k v rfl]
    · simp [Function.comp, repl_ne k v a b hq]
  · have hsk : setKey p k v = p ++ [(k, v)] := by
      unfold setKey; simp [h]
    rw [hsk]
    have hmem' : hasKey (p ++ [(k, v)]) k = true := hsk ▸ hmem
    have hpk : getKey? p k = none := (not_hasKey_iff p k).mp h
    unfold setKey
    rw [if_pos hmem', List.map_append, map_repl_eq_self p k v hpk]
    simp [repl_eq k v k v rfl]

theorem dictUpdate_nil (d : Props) : dictUpdate d [] = d := rfl

theorem dictUpdate_cons (d : Props) (q : String × PVal) (e : Props) :
    dictUpdate d (q :: e) = dictUpdate (setKey d q.1 q.2) e := rfl

theorem getKey?_dictUpdate (d e : Props) (k : String)
    (hwf : (e.map Prod.fst).Nodup) :
    getKey? (dictUpdate d e) k = orElseO (getKey? e k) (getKey? d k) := by
  induction e generalizing d with
  | nil => simp [dictUpdate_nil, getKey?, orElseO]
  | cons hd tl ih =>
    simp only [List.map_cons, List.nodup_cons] at hwf
    rw [dictUpdate_cons]
    rw [ih _ hwf.2]
    by_cases hk : hd.1 = k
    · have htl : getKey? tl k = none := by
        rw [getKey?_eq_none_iff]
        intro q hq he
        have : q.1 ∈ tl.map Prod.fst := List.mem_map_of_mem Prod.fst hq
        rw [he, ← hk] at this
        exact hwf.1 this
      rw [← hk]
      simp [getKey?, htl, hk, orElseO, getKey?_setKey_self]
    · simp [getKey?, hk, getKey?_setKey_ne d hd.1 hd.2 k fun e => hk e.symm]

/-! ### Heap-update lemmas -/

theorem setParent_props (h : Heap) (id : Nat) (p : Option Nat) (j : Nat) :
    ((setParent h id p) j).props = (h j).props := by
  unfold setParent; by_cases hj : j = id <;> simp [hj]

theorem setParent_colourBar (h : Heap) (id : Nat) (p : Option Nat) (j : Nat) :
    ((setParent h id p) j).colourBar = (h j).colourBar := by
  unfold setParent; by_cases hj : j = id <;> simp [hj]

theorem setParent_typeTag (h : Heap) (id : Nat) (p : Option Nat) (j : Nat) :
    ((setParent h id p) j).typeTag = (h j).typeTag := by
  unfold setParent; by_cases hj : j = id <;> simp [hj]

theorem setParent_self (h : Heap) (id : Nat) (p : Option Nat) :
    ((setParent h id p) id).parent = p := by
  unfold setParent; simp

theorem setParent_ne (h : Heap) (id : Nat) (p : Option Nat) (j : Nat) (hj : j ≠ id) :
    (setParent h id p) j = h j := by
  unfold setParent; simp [hj]

theorem setProps_parent (h : Heap) (id : Nat) (ps : Props) (j : Nat) :
    ((setProps h id ps) j).parent = (h j).parent := by
  unfold setProps; by_cases hj : j = id <;> simp [hj]

theorem setProps_colourBar (h : Heap) (id : Nat) (ps : Props) (j : Nat) :
    ((setProps h id ps) j).colourBar = (h j).colourBar := by
  unfold setProps; by_cases hj : j = id <;> simp [hj]

theorem setProps_typeTag (h : Heap) (id : Nat) (ps : Props) (j : Nat) :
    ((setProps h id ps) j).typeTag = (h j).typeTag := by
  unfold setProps; by_cases hj : j = id <;> simp [hj]

theorem setProps_self (h : Heap) (id : Nat) (ps : Props) :
    ((setProps h id ps) id).props = ps := by
  unfold setProps; simp

theorem setProps_ne (h : Heap) (id : Nat) (ps : Props) (j : Nat) (hj : j ≠ id) :
    (setProps h id ps) j = h j := by
  unfold setProps; simp [hj]

/-! ### Merge-loop lemmas -/

theorem mergeLoop_props (fuel : Nat) :
    ∀ (h : Heap) (a s : List Nat) (i : Nat) (id : Nat),
      ((mergeLoop fuel h a s i).heap id).props = (h id).props := by
  induction fuel with
  | zero => intro h a s i id; rfl
  | succ fuel ih =>
    intro h a s i id
    unfold mergeLoop
    by_cases hi : i < a.length
    · rw [if_pos hi]
      cases hcb : (h (a.getD i 0)).colourBar with
      | some cb =>
        simp only [hcb]
        rw [ih]
        rw [setParent_props, setParent_props]
      | none =>
        simp only [hcb]
        rw [ih, setParent_props]
    · rw [if_neg hi]

theorem mergeLoop_colourBar (fuel : Nat) :
    ∀ (h : Heap) (a s : List Nat) (i : Nat) (id : Nat),
      ((mergeLoop fuel h a s i).heap id).colourBar = (h id).colourBar := by
  induction fuel with
  | zero => intro h a s i id; rfl
  | succ fuel ih =>
    intro h a s i id
    unfold mergeLoop
    by_cases hi : i < a.length
    · rw [if_pos hi]
      cases hcb : (h (a.getD i 0)).colourBar with
      | some cb =>
        simp only [hcb]
        rw [ih]
        rw [setParent_colourBar, setParent_colourBar]
      | none =>
        simp only [hcb]
        rw [ih, setParent_colourBar]
    · rw [if_neg hi]

theorem mem_ifAppend (s : List Nat) (oid x : Nat) (hx : x ∈ s) :
    x ∈ (if oid ∈ s then s else s ++ [oid]) := by
  split
  · exact hx
  · exact List.mem_append_left _ hx

theorem mergeLoop_store_mono (fuel : Nat) :
    ∀ (h : Heap) (a s : List Nat) (i : Nat) (x : Nat),
      x ∈ s → x ∈ (mergeLoop fuel h a s i).store := by
  induction fuel with
  | zero => intro h a s i x hx; exact hx
  | succ fuel ih =>
    intro h a s i x hx
    unfold mergeLoop
    by_cases hi : i < a.length
    · rw [if_pos hi]
      cases hcb : (h (a.getD i 0)).colourBar with
      | some cb =>
        simp only [hcb]
        exact ih _ _ _ _ _ (mem_ifAppend s _ x hx)
      | none =>
        simp only [hcb]
        exact ih _ _ _ _ _ (mem_ifAppend s _ x hx)
    · rw [if_neg hi]
      exact hx

theorem mem_ifAppend_self (s : List Nat) (oid : Nat) :
    oid ∈ (if oid ∈ s then s else s ++ [oid]) := by
  split
  · assumption
  · simp

theorem mergeLoop_step_some (fuel : Nat) (h : Heap) (a s : List Nat) (i : Nat) (cb : Nat)
    (hi : i < a.length) (hcb : (h (a.getD i 0)).colourBar = some cb) :
    mergeLoop (fuel + 1) h a s i =
      mergeLoop fuel (setParent (setParent h cb (some (a.getD i 0))) (a.getD i 0) none)
        (a ++ [cb]) (if a.getD i 0 ∈ s then s else s ++ [a.getD i 0]) (i + 1) := by
  conv_lhs => unfold mergeLoop
  rw [if_pos hi]
  simp only [hcb]

theorem mergeLoop_step_none (fuel : Nat) (h : Heap) (a s : List Nat) (i : Nat)
    (hi : i < a.length) (hcb : (h (a.getD i 0)).colourBar = none) :
    mergeLoop (fuel + 1) h a s i =
      mergeLoop fuel (setParent h (a.getD i 0) none)
        a (if a.getD i 0 ∈ s then s else s ++ [a.getD i 0]) (i + 1) := by
  conv_lhs => unfold mergeLoop
  rw [if_pos hi]
  simp only [hcb]

theorem mergeLoop_stop (fuel : Nat) (h : Heap) (a s : List Nat) (i : Nat)
    (hi : ¬i < a.length) :
    mergeLoop (fuel + 1) h a s i = ⟨h, a, s, true⟩ := by
  conv_lhs => unfold mergeLoop
  rw [if_neg hi]

theorem mergeLoop_cong (fuel : Nat) :
    ∀ (h k : Heap) (a s t : List Nat) (i : Nat), cbEq h k →
      (mergeLoop fuel h a s i).active = (mergeLoop fuel k a t i).active ∧
      (mergeLoop fuel h a s i).done = (mergeLoop fuel k a t i).done ∧
      cbEq (mergeLoop fuel h a s i).heap (mergeLoop fuel k a t i).heap ∧
      ∀ id,
        ((mergeLoop fuel h a s i).heap id).parent
            = ((mergeLoop fuel k a t i).heap id).parent ∨
        (((mergeLoop fuel h a s i).heap id).parent = (h id).parent ∧
         ((mergeLoop fuel k a t i).heap id).parent = (k id).parent) := by
  induction fuel with
  | zero =>
    intro h k a s t i hcb
    exact ⟨rfl, rfl, hcb, fun id => Or.inr ⟨rfl, rfl⟩⟩
  | succ fuel ih =>
    intro h k a s t i hcb
    by_cases hi : i < a.length
    · cases hcb1 : (h (a.getD i 0)).colourBar with
      | some cb =>
        have hcb2 : (k (a.getD i 0)).colourBar = some cb := by
          rw [← hcb (a.getD i 0)]; exact hcb1
        rw [mergeLoop_step_some fuel h a s i cb hi hcb1,
            mergeLoop_step_some fuel k a t i cb hi hcb2]
        have hstep : cbEq
            (setParent (setParent h cb (some (a.getD i 0))) (a.getD i 0) none)
            (setParent (setParent k cb (some (a.getD i 0))) (a.getD i 0) none) := by
          intro id
          rw [setParent_colourBar, setParent_colourBar, setParent_colourBar,
              setParent_colourBar]
          exact hcb id
        obtain ⟨e1, e2, e3, e4⟩ := ih _ _ (a ++ [cb])
          (if a.getD i 0 ∈ s then s else s ++ [a.getD i 0])
          (if a.getD i 0 ∈ t then t else t ++ [a.getD i 0]) (i + 1) hstep
        refine ⟨e1, e2, e3, ?_⟩
        intro id
        rcases e4 id with he | ⟨eh, ek⟩
        · exact Or.inl he
        · by_cases hid : id = a.getD i 0
          · subst hid
            rw [setParent_self] at eh ek
            exact Or.inl (eh.trans ek.symm)
          · by_cases hid2 : id = cb
            · subst hid2
              rw [setParent_ne _ _ _ _ hid, setParent_self] at eh ek
              exact Or.inl (eh.trans ek.symm)
            · rw [setParent_ne _ _ _ _ hid, setParent_ne _ _ _ _ hid2] at eh ek
              exact Or.inr ⟨eh, ek⟩
      | none =>
        have hcb2 : (k (a.getD i 0)).colourBar = none := by
          rw [← hcb (a.getD i 0)]; exact hcb1
        rw [mergeLoop_step_none fuel h a s i hi hcb1,
            mergeLoop_step_none fuel k a t i hi hcb2]
        have hstep : cbEq (setParent h (a.getD i 0) none)
            (setParent k (a.getD i 0) none) := by
          intro id
          rw [setParent_colourBar, setParent_colourBar]
          exact hcb id
        obtain ⟨e1, e2, e3, e4⟩ := ih _ _ a
          (if a.getD i 0 ∈ s then s else s ++ [a.getD i 0])
          (if a.getD i 0 ∈ t then t else t ++ [a.getD i 0]) (i + 1) hstep
        refine ⟨e1, e2, e3, ?_⟩
        intro id
        rcases e4 id with he | ⟨eh, ek⟩
        · exact Or.inl he
        · by_cases hid : id = a.getD i 0
          · subst hid
            rw [setParent_self] at eh ek
            exact Or.inl (eh.trans ek.symm)
          · rw [setParent_ne _ _ _ _ hid] at eh ek
            exact Or.inr ⟨eh, ek⟩
    · rw [mergeLoop_stop fuel h a s i hi, mergeLoop_stop fuel k a t i hi]
      exact ⟨rfl, rfl, hcb, fun id => Or.inr ⟨rfl, rfl⟩⟩

theorem mergeLoop_store_stable (fuel : Nat) :
    ∀ (h k : Heap) (a s : List Nat) (i : Nat), cbEq h k →
      (mergeLoop fuel k a (mergeLoop fuel h a s i).store i).store
        = (mergeLoop fuel h a s i).store := by
  induction fuel with
  | zero => intro h k a s i _; rfl
  | succ fuel ih =>
    intro h k a s i hcb
    by_cases hi : i < a.length
    · cases hcb1 : (h (a.getD i 0)).colourBar with
      | some cb =>
        have hcb2 : (k (a.getD i 0)).colourBar = some cb := by
          rw [← hcb (a.getD i 0)]; exact hcb1
        rw [mergeLoop_step_some fuel h a s i cb hi hcb1]
        rw [mergeLoop_step_some fuel k a _ i cb hi hcb2]
        have hmem : a.getD i 0 ∈
            (mergeLoop fuel (setParent (setParent h cb (some (a.getD i 0))) (a.getD i 0) none)
              (a ++ [cb]) (if a.getD i 0 ∈ s then s else s ++ [a.getD i 0]) (i + 1)).store :=
          mergeLoop_store_mono fuel _ _ _ _ _ (mem_ifAppend_self s (a.getD i 0))
        rw [if_pos hmem]
        have hstep : cbEq
            (setParent (setParent h cb (some (a.getD i 0))) (a.getD i 0) none)
            (setParent (setParent k cb (some (a.getD i 0))) (a.getD i 0) none) := by
          intro id
          rw [setParent_colourBar, setParent_colourBar, setParent_colourBar,
              setParent_colourBar]
          exact hcb id
        exact ih _ _ (a ++ [cb]) (if a.getD i 0 ∈ s then s else s ++ [a.getD i 0])
          (i + 1) hstep
      | none =>
        have hcb2 : (k (a.getD i 0)).colourBar = none := by
          rw [← hcb (a.getD i 0)]; exact hcb1
        rw [mergeLoop_step_none fuel h a s i hi hcb1]
        rw [mergeLoop_step_none fuel k a _ i hi hcb2]
        have hmem : a.getD i 0 ∈
            (mergeLoop fuel (setParent h (a.getD i 0) none)
              a (if a.getD i 0 ∈ s then s else s ++ [a.getD i 0]) (i + 1)).store :=
          mergeLoop_store_mono fuel _ _ _ _ _ (mem_ifAppend_self s (a.getD i 0))
        rw [if_pos hmem]
        have hstep : cbEq (setParent h (a.getD i 0) none)
            (setParent k (a.getD i 0) none) := by
          intro id
          rw [setParent_colourBar, setParent_colourBar]
          exact hcb id
        exact ih _ _ a (if a.getD i 0 ∈ s then s else s ++ [a.getD i 0]) (i + 1) hstep
    · rw [mergeLoop_stop fuel h a s i hi]
      rw [mergeLoop_stop fuel k a _ i hi]

/-! ### Naming-loop lemmas -/

theorem setProps_obj (h : Heap) (id : Nat) (ps : Props) :
    (setProps h id ps) id = { h id with props := ps } := by
  unfold setProps; simp

theorem nameLoop_cons (h : Heap) (x : Nat) (rest : List Nat) (o : Nat) :
    nameLoop h (x :: rest) o =
      nameLoop (if hasKey (h x).props "name" then h
                else setProps h x (setKey (h x).props "name" (.str (nameFor (h x) o))))
        rest (o + 1) := rfl

theorem nameLoop_parent (S : List Nat) :
    ∀ (h : Heap) (o id : Nat), ((nameLoop h S o) id).parent = (h id).parent := by
  induction S with
  | nil => intro h o id; rfl
  | cons x rest ih =>
    intro h o id
    rw [nameLoop_cons, ih]
    split
    · rfl
    · rw [setProps_parent]

theorem nameLoop_colourBar (S : List Nat) :
    ∀ (h : Heap) (o id : Nat), ((nameLoop h S o) id).colourBar = (h id).colourBar := by
  induction S with
  | nil => intro h o id; rfl
  | cons x rest ih =>
    intro h o id
    rw [nameLoop_cons, ih]
    split
    · rfl
    · rw [setProps_colourBar]

theorem nameLoop_keep_name (S : List Nat) :
    ∀ (h : Heap) (o id : Nat) (n : PVal),
      getKey? (h id).props "name" = some n →
      getKey? ((nameLoop h S o) id).props "name" = some n := by
  induction S with
  | nil => intro h o id n hn; exact hn
  | cons x rest ih =>
    intro h o id n hn
    rw [nameLoop_cons]
    apply ih
    by_cases hx : hasKey (h x).props "name"
    · rw [if_pos hx]; exact hn
    · rw [if_neg hx]
      by_cases hid : id = x
      · exact absurd (by rw [hid] at hn; simp [hasKey, hn]) hx
      · rw [setProps_ne _ _ _ _ hid]; exact hn

theorem nameLoop_hasKey_name (S : List Nat) (h : Heap) (o id : Nat)
    (hk : hasKey (h id).props "name" = true) :
    hasKey ((nameLoop h S o) id).props "name" = true := by
  have h1 : (getKey? (h id).props "name").isSome = true := hk
  obtain ⟨n, hn⟩ := Option.isSome_iff_exists.mp h1
  have h2 := nameLoop_keep_name S h o id n hn
  simp [hasKey, h2]

theorem nameLoop_named (S : List Nat) :
    ∀ (h : Heap) (o id : Nat), id ∈ S →
      hasKey ((nameLoop h S o) id).props "name" = true := by
  induction S with
  | nil => intro h o id hid; simp at hid
  | cons x rest ih =>
    intro h o id hid
    rw [nameLoop_cons]
    rcases List.mem_cons.mp hid with hx | hr
    · subst hx
      apply nameLoop_hasKey_name
      by_cases hk : hasKey (h id).props "name"
      · rw [if_pos hk]; exact hk
      · rw [if_neg hk, setProps_self]
        simp [hasKey, getKey?_setKey_self]
    · exact ih _ _ _ hr

theorem nameLoop_noop (S : List Nat) :
    ∀ (h : Heap) (o : Nat),
      (∀ id ∈ S, hasKey (h id).props "name" = true) → nameLoop h S o = h := by
  induction S with
  | nil => intro h o _; rfl
  | cons x rest ih =>
    intro h o hall
    rw [nameLoop_cons, if_pos (hall x (List.mem_cons_self x rest))]
    exact ih h (o + 1) fun id hid => hall id (List.mem_cons_of_mem x hid)

theorem nameLoop_untouched (S : List Nat) :
    ∀ (h : Heap) (o id : Nat), id ∉ S → (nameLoop h S o) id = h id := by
  induction S with
  | nil => intro h o id _; rfl
  | cons x rest ih =>
    intro h o id hid
    have hx : id ≠ x := fun e => hid (e ▸ List.mem_cons_self x rest)
    have hr : id ∉ rest := fun hh => hid (List.mem_cons_of_mem x hh)
    rw [nameLoop_cons, ih _ _ _ hr]
    split
    · rfl
    · rw [setProps_ne _ _ _ _ hx]

theorem nameLoop_char (S : List Nat) :
    ∀ (h : Heap) (b : Nat), S.Nodup →
      ∀ (i : Nat) (hi : i < S.length),
        (nameLoop h S b) (S.get ⟨i, hi⟩) =
          (if hasKey (h (S.get ⟨i, hi⟩)).props "name" then h (S.get ⟨i, hi⟩)
           else { h (S.get ⟨i, hi⟩) with
                    props := setKey (h (S.get ⟨i, hi⟩)).props "name"
                      (.str (nameFor (h (S.get ⟨i, hi⟩)) (b + i))) }) := by
  induction S with
  | nil => intro h b _ i hi; simp at hi
  | cons x rest ih =>
    intro h b hnd i hi
    have hnd' := List.nodup_cons.mp hnd
    rw [nameLoop_cons]
    cases i with
    | zero =>
      have hget0 : (x :: rest).get ⟨0, hi⟩ = x := rfl
      rw [hget0, Nat.add_zero]
      show (nameLoop _ rest (b + 1)) x = _
      rw [nameLoop_untouched rest _ _ x hnd'.1]
      by_cases hk : hasKey (h x).props "name"
      · rw [if_pos hk, if_pos hk]
      · rw [if_neg hk, if_neg hk, setProps_obj, Nat.add_zero]
    | succ j =>
      have hj : j < rest.length := by simpa using hi
      have hget : (x :: rest).get ⟨j + 1, hi⟩ = rest.get ⟨j, hj⟩ := rfl
      rw [hget]
      have hmem : rest.get ⟨j, hj⟩ ∈ rest := List.get_mem rest j hj
      have hne : rest.get ⟨j, hj⟩ ≠ x := fun e => hnd'.1 (e ▸ hmem)
      have h2eq :
          (if hasKey (h x).props "name" then h
           else setProps h x (setKey (h x).props "name" (.str (nameFor (h x) b))))
            (rest.get ⟨j, hj⟩) = h (rest.get ⟨j, hj⟩) := by
        split
        · rfl
        · rw [setProps_ne _ _ _ _ hne]
      rw [ih _ (b + 1) hnd'.2 j hj, h2eq]
      rw [show b + 1 + j = b + (j + 1) from by omega]

/-! ### Visibility-loop lemmas -/

theorem visLoop_cons (a : List Nat) (h : Heap) (x : Nat) (rest : List Nat) :
    visLoop a h (x :: rest) =
      visLoop a (setProps h x (setKey (h x).props "visible" (.bool (visFlag h a x)))) rest :=
  rfl

theorem visFlag_congr (h k : Heap) (a : List Nat) (id : Nat)
    (hp : (h id).parent = (k id).parent) : visFlag h a id = visFlag k a id := by
  unfold visFlag; rw [hp]

theorem visLoop_char (S : List Nat) :
    ∀ (a : List Nat) (h : Heap) (id : Nat),
      (visLoop a h S) id =
        if id ∈ S then
          { h id with props := setKey (h id).props "visible" (.bool (visFlag h a id)) }
        else h id := by
  induction S with
  | nil => intro a h id; simp [visLoop]
  | cons x rest ih =>
    intro a h id
    rw [visLoop_cons, ih]
    by_cases hx : id = x
    · subst hx
      rw [if_pos (List.mem_cons_self id rest)]
      by_cases hr : id ∈ rest
      · rw [if_pos hr, setProps_obj]
        have hflag : visFlag
            (setProps h id (setKey (h id).props "visible" (.bool (visFlag h a id)))) a id
            = visFlag h a id :=
          visFlag_congr _ _ _ _ (setProps_parent h id _ id)
        rw [hflag]
        show ({ h id with
            props := setKey (setKey (h id).props "visible" (.bool (visFlag h a id)))
              "visible" (.bool (visFlag h a id)) } : ObjData) = _
        rw [setKey_idem]
      · rw [if_neg hr, setProps_obj]
    · by_cases hr : id ∈ rest
      · rw [if_pos hr, if_pos (List.mem_cons_of_mem x hr), setProps_ne _ _ _ _ hx]
        have hflag : visFlag
            (setProps h x (setKey (h x).props "visible" (.bool (visFlag h a x)))) a id
            = visFlag h a id :=
          visFlag_congr _ _ _ _ (setProps_parent h x _ id)
        rw [hflag]
      · rw [if_neg hr, if_neg (by simp [hx, hr]), setProps_ne _ _ _ _ hx]

theorem visLoop_parent (S : List Nat) (a : List Nat) (h : Heap) (id : Nat) :
    ((visLoop a h S) id).parent = (h id).parent := by
  rw [visLoop_char]
  split
  · rfl
  · rfl

theorem visLoop_colourBar (S : List Nat) (a : List Nat) (h : Heap) (id : Nat) :
    ((visLoop a h S) id).colourBar = (h id).colourBar := by
  rw [visLoop_char]
  split
  · rfl
  · rfl

theorem visLoop_name (S : List Nat) (a : List Nat) (h : Heap) (id : Nat) :
    getKey? ((visLoop a h S) id).props "name" = getKey? (h id).props "name" := by
  rw [visLoop_char]
  split
  · show getKey? (setKey (h id).props "visible" (.bool (visFlag h a id))) "name" = _
    exact getKey?_setKey_ne _ _ _ _ (by decide)
  · rfl

theorem assignNames_eq (h : Heap) (s : List Nat) : assignNames h s = nameLoop h s 0 := rfl

theorem mergeLoop_typeTag (fuel : Nat) :
    ∀ (h : Heap) (a s : List Nat) (i : Nat) (id : Nat),
      ((mergeLoop fuel h a s i).heap id).typeTag = (h id).typeTag := by
  induction fuel with
  | zero => intro h a s i id; rfl
  | succ fuel ih =>
    intro h a s i id
    by_cases hi : i < a.length
    · cases hcb : (h (a.getD i 0)).colourBar with
      | some cb =>
        rw [mergeLoop_step_some fuel h a s i cb hi hcb, ih,
            setParent_typeTag, setParent_typeTag]
      | none =>
        rw [mergeLoop_step_none fuel h a s i hi hcb, ih, setParent_typeTag]
    · rw [mergeLoop_stop fuel h a s i hi]

/-! ### Filter lemmas for `_updateProperties` -/

theorem getKey?_filter_truthy_pos (p : Props) (k : String) (v : PVal)
    (hv : getKey? p k = some v) (ht : truthy v = true) :
    getKey? (p.filter fun q => truthy q.2) k = some v := by
  induction p with
  | nil => simp [getKey?] at hv
  | cons hd tl ih =>
    obtain ⟨k1, v1⟩ := hd
    by_cases hk : k1 = k
    · have hv1 : v1 = v := by
        rw [show getKey? ((k1, v1) :: tl) k = some v1 from by simp [getKey?, hk]] at hv
        exact Option.some_injective _ hv
      subst hv1
      rw [List.filter_cons, if_pos (by simpa using ht)]
      simp [getKey?, hk]
    · have hv' : getKey? tl k = some v := by simpa [getKey?, hk] using hv
      rw [List.filter_cons]
      split
      · simp [getKey?, hk, ih hv']
      · exact ih hv'

theorem getKey?_filter_truthy_neg (p : Props) (k : String) (v : PVal)
    (hwf : (p.map Prod.fst).Nodup)
    (hv : getKey? p k = some v) (ht : truthy v = false) :
    getKey? (p.filter fun q => truthy q.2) k = none := by
  induction p with
  | nil => simp [getKey?] at hv
  | cons hd tl ih =>
    obtain ⟨k1, v1⟩ := hd
    simp only [List.map_cons, List.nodup_cons] at hwf
    by_cases hk : k1 = k
    · have hv1 : v1 = v := by
        rw [show getKey? ((k1, v1) :: tl) k = some v1 from by simp [getKey?, hk]] at hv
        exact Option.some_injective _ hv
      subst hv1
      rw [List.filter_cons, if_neg (by simpa using ht)]
      rw [getKey?_eq_none_iff]
      intro q hq he
      have hq1 : q.1 ∈ (tl.filter fun q => truthy q.2).map Prod.fst :=
        List.mem_map_of_mem Prod.fst hq
      have hq2 : q.1 ∈ tl.map Prod.fst := by
        have hsub := ((List.filter_sublist (l := tl) (p := fun q => truthy q.2)).map
          Prod.fst).mem hq1
        exact hsub
      rw [he, ← hk] at hq2
      exact hwf.1 hq2
    · have hv' : getKey? tl k = some v := by simpa [getKey?, hk] using hv
      rw [List.filter_cons]
      split
      · simp [getKey?, hk, ih hwf.2 hv']
      · exact ih hwf.2 hv'

/-! ### Reconciliation lemmas -/

theorem reconcileLoop_cons (d u : Props) (rest : List Props) :
    reconcileLoop d (u :: rest) =
      match reconcileStep d u with
      | some d2 => reconcileLoop d2 rest
      | none => none := rfl

theorem reconcileStep_skip (d u : Props) (dn un : PVal)
    (hdn : getKey? d "name" = some dn) (hun : getKey? u "name" = some un)
    (hne : un ≠ dn) : reconcileStep d u = some d := by
  unfold reconcileStep
  rw [hdn, hun]
  show (if dn = un then some (setKey (dictUpdate d u) "visible" (.bool true)) else some d)
    = some d
  rw [if_neg fun e => hne e.symm]

theorem reconcileStep_hit (d u : Props) (dn : PVal)
    (hdn : getKey? d "name" = some dn) (hun : getKey? u "name" = some dn) :
    reconcileStep d u = some (setKey (dictUpdate d u) "visible" (.bool true)) := by
  unfold reconcileStep
  rw [hdn, hun]
  show (if dn = dn then some (setKey (dictUpdate d u) "visible" (.bool true)) else some d)
    = some (setKey (dictUpdate d u) "visible" (.bool true))
  rw [if_pos rfl]

theorem reconcileLoop_skip (l : List Props) :
    ∀ (d : Props) (dn : PVal), getKey? d "name" = some dn →
      (∀ u ∈ l, ∃ un, getKey? u "name" = some un ∧ un ≠ dn) →
      reconcileLoop d l = some d := by
  induction l with
  | nil => intro d dn _ _; rfl
  | cons u rest ih =>
    intro d dn hdn hall
    obtain ⟨un, hun, hne⟩ := hall u (List.mem_cons_self u rest)
    rw [reconcileLoop_cons, reconcileStep_skip d u dn un hdn hun hne]
    exact ih d dn hdn fun w hw => hall w (List.mem_cons_of_mem u hw)

theorem reconcileLoop_append (s : List Props) :
    ∀ (d : Props) (t : List Props),
      reconcileLoop d (s ++ t) =
        match reconcileLoop d s with
        | some d2 => reconcileLoop d2 t
        | none => none := by
  induction s with
  | nil => intro d t; rfl
  | cons u rest ih =>
    intro d t
    rw [List.cons_append, reconcileLoop_cons, reconcileLoop_cons]
    cases reconcileStep d u with
    | some d2 => exact ih d2 t
    | none => rfl

theorem reconcileOne_no_match (d : Props) (ovs : List Props) (dn : PVal)
    (hdn : getKey? d "name" = some dn)
    (hall : ∀ u ∈ ovs, ∃ un, getKey? u "name" = some un ∧ un ≠ dn) :
    reconcileOne d ovs = some (setKey d "visible" (.bool false)) := by
  unfold reconcileOne
  apply reconcileLoop_skip ovs _ dn ?_ hall
  rw [getKey?_setKey_ne _ _ _ _ (by decide)]
  exact hdn

theorem reconcileOne_match (d : Props) (s t : List Props) (v : Props) (dn : PVal)
    (hdn : getKey? d "name" = some dn)
    (hv : getKey? v "name" = some dn)
    (hvwf : (v.map Prod.fst).Nodup)
    (hs : ∀ u ∈ s, ∃ un, getKey? u "name" = some un ∧ un ≠ dn)
    (ht : ∀ u ∈ t, ∃ un, getKey? u "name" = some un ∧ un ≠ dn) :
    reconcileOne d (s ++ v :: t) =
      some (setKey (dictUpdate (setKey d "visible" (.bool false)) v)
        "visible" (.bool true)) := by
  unfold reconcileOne
  have hd0 : getKey? (setKey d "visible" (.bool false)) "name" = some dn := by
    rw [getKey?_setKey_ne _ _ _ _ (by decide)]
    exact hdn
  rw [reconcileLoop_append, reconcileLoop_skip s _ dn hd0 hs]
  show reconcileLoop _ (v :: t) = _
  rw [reconcileLoop_cons, reconcileStep_hit _ v dn hd0 hv]
  show reconcileLoop _ t = _
  apply reconcileLoop_skip t _ dn ?_ ht
  rw [getKey?_setKey_ne _ _ _ _ (by decide), getKey?_dictUpdate _ _ _ hvwf, hv]
  rfl

theorem reconcileAll_char (dbobjs : List Props) :
    ∀ (ovs : List Props),
      (∀ d ∈ dbobjs, ∃ r, reconcileOne d ovs = some r) →
      ∃ res, reconcileAll dbobjs ovs = some res ∧ res.length = dbobjs.length ∧
        ∀ (i : Nat) (h1 : i < dbobjs.length) (h2 : i < res.length),
          reconcileOne (dbobjs.get ⟨i, h1⟩) ovs = some (res.get ⟨i, h2⟩) := by
  induction dbobjs with
  | nil =>
    intro ovs _
    exact ⟨[], rfl, rfl, fun i h1 => by simp at h1⟩
  | cons d rest ih =>
    intro ovs hall
    obtain ⟨r, hr⟩ := hall d (List.mem_cons_self d rest)
    obtain ⟨res, hres, hlen, hidx⟩ := ih ovs fun d2 hd2 => hall d2 (List.mem_cons_of_mem d hd2)
    refine ⟨r :: res, ?_, by simp [hlen], ?_⟩
    · unfold reconcileAll
      rw [hr, hres]
    · intro i h1 h2
      cases i with
      | zero => exact hr
      | succ j =>
        have hj1 : j < rest.length := by simpa using h1
        have hj2 : j < res.length := by simpa using h2
        exact hidx j hj1 hj2

/-! ### Live-phase lemmas -/

theorem livePhase_default_name (h g : Heap) (S A : List Nat)
    (hp : ∀ j, (h j).props = (g j).props)
    (ht : ∀ j, (h j).typeTag = (g j).typeTag)
    (hnd : S.Nodup) (o : Nat) (ho : o < S.length)
    (hun : hasKey (g (S.get ⟨o, ho⟩)).props "name" = false) :
    getKey? ((livePhase h S A) (S.get ⟨o, ho⟩)).props "name"
      = some (.str (if truthyOpt (getKey? (g (S.get ⟨o, ho⟩)).props "colourbar")
          then "ColourBar_" ++ toString o
          else (g (S.get ⟨o, ho⟩)).typeTag.drop 3 ++ "_" ++ toString o)) := by
  unfold livePhase
  rw [visLoop_name, assignNames_eq, nameLoop_char S h 0 hnd o ho]
  have hun' : ¬hasKey (h (S.get ⟨o, ho⟩)).props "name" = true := by
    rw [hp, hun]; simp
  rw [if_neg hun']
  show getKey? (setKey (h (S.get ⟨o, ho⟩)).props "name"
      (.str (nameFor (h (S.get ⟨o, ho⟩)) (0 + o)))) "name" = _
  rw [getKey?_setKey_self, Nat.zero_add]
  unfold nameFor
  rw [hp, ht]

theorem livePhase_keep_name (h : Heap) (S A : List Nat) (id : Nat) (n : PVal)
    (hn : getKey? (h id).props "name" = some n) :
    getKey? ((livePhase h S A) id).props "name" = some n := by
  unfold livePhase
  rw [visLoop_name, assignNames_eq]
  exact nameLoop_keep_name S h 0 id n hn

theorem livePhase_visible (h : Heap) (S A : List Nat) (id : Nat) (hid : id ∈ S) :
    getKey? ((livePhase h S A) id).props "visible"
      = some (.bool (visFlag (livePhase h S A) A id)) := by
  unfold livePhase
  rw [visFlag_congr (visLoop A (assignNames h S) S) (assignNames h S) A id
      (visLoop_parent S A (assignNames h S) id)]
  rw [visLoop_char, if_pos hid]
  show getKey? (setKey ((assignNames h S) id).props "visible"
      (.bool (visFlag (assignNames h S) A id))) "visible" = _
  rw [getKey?_setKey_self]

/-! ### Claim theorems -/

/-- C2: in view-only reconciliation, the figure state whose `figure` field
equals the requested name is selected when one exists; otherwise the last
state of the non-empty persisted document is selected, and no error is
raised. -/
theorem find_figure_state_spec (states : List FigureState) (figname : String)
    (hne : states ≠ []) :
    ((∃ st ∈ states, st.figure = figname) →
      ∃ st, findState states figname = some st ∧ st ∈ states ∧ st.figure = figname) ∧
    ((∀ st ∈ states, st.figure ≠ figname) →
      findState states figname = states.getLast?) ∧
    (findState states figname).isSome = true := by
  unfold findState
  cases hf : states.find? fun st => decide (st.figure = figname) with
  | some st =>
    refine ⟨fun _ => ⟨st, rfl, List.mem_of_find?_eq_some hf,
      by simpa using List.find?_some hf⟩, ?_, rfl⟩
    intro hall
    exact absurd (by simpa using List.find?_some hf)
      (hall st (List.mem_of_find?_eq_some hf))
  | none =>
    refine ⟨?_, fun _ => rfl, ?_⟩
    · intro hex
      obtain ⟨st, hmem, hfig⟩ := hex
      have hnone := List.find?_eq_none.mp hf st hmem
      simp [hfig] at hnone
    · simpa using List.getLast?_isSome.mpr hne

/-- Witness for C2: requesting `Missing` against `[Figure_1, Figure_2]`
returns the last state, without an error. -/
theorem find_figure_state_witness :
    findState [exFig1, exFig2] "Missing" = [exFig1, exFig2].getLast? ∧
    (findState [exFig1, exFig2] "Missing").isSome = true :=
  ⟨(find_figure_state_spec [exFig1, exFig2] "Missing" (by decide)).2.1 (by decide),
   (find_figure_state_spec [exFig1, exFig2] "Missing" (by decide)).2.2⟩

/-- C6: property merging is last-write-wins per key: the concrete example
`{a:1,b:2}` updated with `{b:3,c:4}` gives `{a:1,b:3,c:4}`, lookups in a
merge prefer the updating dict, and the view-only branch merges the figure
properties into both `properties` and the single `views[0]` entry with this
semantics. -/
theorem merge_last_write_wins_spec :
    dictUpdate [("a", .num 1), ("b", .num 2)] [("b", .num 3), ("c", .num 4)]
      = [("a", .num 1), ("b", .num 3), ("c", .num 4)] ∧
    (∀ (d e : Props) (k : String), (e.map Prod.fst).Nodup →
        getKey? (dictUpdate d e) k = orElseO (getKey? e k) (getKey? d k)) ∧
    (∀ (st : FigureState) (props v : Props) (rest : List Props),
        st.views = v :: rest →
        mergeFigState st props =
          some { st with properties := dictUpdate st.properties props
                         views := dictUpdate v props :: rest }) := by
  refine ⟨by decide, ?_, ?_⟩
  · intro d e k h
    exact getKey?_dictUpdate d e k h
  · intro st props v rest hv
    unfold mergeFigState
    rw [hv]

/-- Witness for C6 at concrete inputs. -/
theorem merge_last_write_wins_witness :
    getKey? (dictUpdate [("a", PVal.num 1), ("b", PVal.num 2)]
        [("b", PVal.num 3), ("c", PVal.num 4)]) "b"
      = orElseO (getKey? [("b", PVal.num 3), ("c", PVal.num 4)] "b")
          (getKey? [("a", PVal.num 1), ("b", PVal.num 2)] "b") ∧
    mergeFigState exFig1 [("q", PVal.num 7)] =
      some { exFig1 with
               properties := dictUpdate exFig1.properties [("q", PVal.num 7)]
               views := dictUpdate [] [("q", PVal.num 7)] :: [] } :=
  ⟨merge_last_write_wins_spec.2.1 _ _ "b" (by decide),
   merge_last_write_wins_spec.2.2 exFig1 [("q", PVal.num 7)] [] [] (by decide)⟩

/-- C8: when the first HTTP attempt of `Figure.send_command` fails, exactly
one retry happens after a single one-second delay, the outcome is the second
attempt's, no further retry occurs and no exception reaches the caller (the
model is a total function into `SendTrace`). -/
theorem send_command_retry_spec (cmd : String) (ok2 : Bool) :
    send_command true 0 cmd false ok2 =
      { attempts := 2, delays := [1], delivered := ok2 } := by
  cases ok2 <;> rfl

/-- C9 (code bug): away from the coordinating rank, `Store.save`,
`Store._read_state` and `Figure.send_command` are guarded no-ops returning
`None`, but view-only `Store._generate` iterates the `None` returned by
`_read_state` and raises a `TypeError` instead of no-opping. -/
theorem nonroot_rank_viewonly_generate_bug :
    store_save 1 "vis" = none ∧
    read_state true 1 [exFig1] = none ∧
    send_command true 1 "rotate" true true =
      { attempts := 0, delays := [], delivered := false } ∧
    generateViewOnly true 1 exSys "Figure_1" [] [] [exFig1] 3 = .error .typeError :=
  ⟨rfl, rfl, rfl, rfl⟩

/-- C10: `_updateProperties` with `overwrite=False` keeps an existing property
exactly when its current value is truthy; a falsy existing value is replaced
by the incoming default for that key. -/
theorem update_properties_truthy_spec (props newProps : Props) (k : String)
    (hwf : (props.map Prod.fst).Nodup) :
    (∀ v, getKey? props k = some v → truthy v = true →
        getKey? (updateProperties props newProps false) k = some v) ∧
    (∀ v w, getKey? props k = some v → truthy v = false →
        getKey? newProps k = some w →
        getKey? (updateProperties props newProps false) k = some w) := by
  have hwf2 : ((props.filter fun q => truthy q.2).map Prod.fst).Nodup :=
    hwf.sublist ((List.filter_sublist props).map Prod.fst)
  have hupd : updateProperties props newProps false
      = dictUpdate newProps (props.filter fun q => truthy q.2) := by
    unfold updateProperties
    rw [if_neg (by simp)]
  constructor
  · intro v hv ht
    rw [hupd, getKey?_dictUpdate _ _ _ hwf2,
      getKey?_filter_truthy_pos props k v hv ht]
    rfl
  · intro v w hv ht hw
    rw [hupd, getKey?_dictUpdate _ _ _ hwf2,
      getKey?_filter_truthy_neg props k v hwf hv ht, hw]
    rfl

/-- Witness for C10: the falsy existing value of `a` is replaced by the
incoming default, the truthy value of `b` survives. -/
theorem update_properties_truthy_witness :
    getKey? (updateProperties [("a", PVal.num 0), ("b", PVal.num 2)]
        [("a", PVal.num 5)] false) "a" = some (PVal.num 5) ∧
    getKey? (updateProperties [("a", PVal.num 0), ("b", PVal.num 2)]
        [("a", PVal.num 5)] false) "b" = some (PVal.num 2) :=
  ⟨(update_properties_truthy_spec [("a", PVal.num 0), ("b", PVal.num 2)]
      [("a", PVal.num 5)] "a" (by decide)).2 (PVal.num 0) (PVal.num 5)
      (by decide) (by decide) (by decide),
   (update_properties_truthy_spec [("a", PVal.num 0), ("b", PVal.num 2)]
      [("a", PVal.num 5)] "b" (by decide)).1 (PVal.num 2) (by decide) (by decide)⟩

/-- C1: view-only reconciliation with a non-empty override list leaves every
persisted descriptor matched by no override hidden (`visible == false`), while
a descriptor whose name an override carries gets the override's properties
merged over it (override wins on conflicting keys) and ends visible; with an
empty override list every persisted descriptor ends visible. -/
theorem viewonly_reconcile_spec (dbobjs ovs : List Props)
    (hdb : ∀ d ∈ dbobjs, (getKey? d "name").isSome = true)
    (hov : ∀ v ∈ ovs, (getKey? v "name").isSome = true)
    (hwf : ∀ v ∈ ovs, (v.map Prod.fst).Nodup)
    (hdist : ovs.Pairwise fun u w => getKey? u "name" ≠ getKey? w "name") :
    (ovs ≠ [] →
      ∃ res, reconcileObjects dbobjs ovs = some res ∧ res.length = dbobjs.length ∧
        ∀ (i : Nat) (h1 : i < dbobjs.length) (h2 : i < res.length),
          ((∀ v ∈ ovs, getKey? v "name" ≠ getKey? (dbobjs.get ⟨i, h1⟩) "name") →
            getKey? (res.get ⟨i, h2⟩) "visible" = some (.bool false)) ∧
          (∀ v ∈ ovs, getKey? v "name" = getKey? (dbobjs.get ⟨i, h1⟩) "name" →
            getKey? (res.get ⟨i, h2⟩) "visible" = some (.bool true) ∧
            ∀ k, k ≠ "visible" →
              getKey? (res.get ⟨i, h2⟩) k =
                orElseO (getKey? v k) (getKey? (dbobjs.get ⟨i, h1⟩) k))) ∧
    (∃ res0, reconcileObjects dbobjs [] = some res0 ∧
      ∀ d2 ∈ res0, getKey? d2 "visible" = some (.bool true)) := by
  constructor
  · intro hne
    have hne' : ovs.length ≠ 0 := fun e => hne (List.length_eq_zero.mp e)
    have hobj : reconcileObjects dbobjs ovs = reconcileAll dbobjs ovs := by
      unfold reconcileObjects
      rw [if_pos hne']
    have hall : ∀ d ∈ dbobjs, ∃ r, reconcileOne d ovs = some r := by
      intro d hd
      obtain ⟨dn, hdn⟩ := Option.isSome_iff_exists.mp (hdb d hd)
      by_cases hmatch : ∃ v ∈ ovs, getKey? v "name" = some dn
      · obtain ⟨v, hvmem, hveq⟩ := hmatch
        obtain ⟨s, t, heq⟩ := List.append_of_mem hvmem
        subst heq
        obtain ⟨ps, pvt, hcross⟩ := List.pairwise_append.mp hdist
        have hvt := (List.pairwise_cons.mp pvt).1
        refine ⟨_, reconcileOne_match d s t v dn hdn hveq (hwf v hvmem) ?_ ?_⟩
        · intro u hu
          obtain ⟨un, hun⟩ := Option.isSome_iff_exists.mp (hov u (List.mem_append_left _ hu))
          refine ⟨un, hun, fun e => ?_⟩
          have h1 := hcross u hu v (List.mem_cons_self v t)
          rw [hun, hveq, e] at h1
          exact h1 rfl
        · intro u hu
          obtain ⟨un, hun⟩ := Option.isSome_iff_exists.mp (hov u
            (List.mem_append_right _ (List.mem_cons_of_mem v hu)))
          refine ⟨un, hun, fun e => ?_⟩
          have h1 := hvt u hu
          rw [hun, hveq, e] at h1
          exact h1 rfl
      · refine ⟨_, reconcileOne_no_match d ovs dn hdn ?_⟩
        intro u hu
        obtain ⟨un, hun⟩ := Option.isSome_iff_exists.mp (hov u hu)
        refine ⟨un, hun, fun e => ?_⟩
        exact hmatch ⟨u, hu, by rw [hun, e]⟩
    obtain ⟨res, hres, hlen, hidx⟩ := reconcileAll_char dbobjs ovs hall
    refine ⟨res, by rw [hobj]; exact hres, hlen, ?_⟩
    intro i h1 h2
    set d := dbobjs.get ⟨i, h1⟩ with hd
    have hdmem : d ∈ dbobjs := List.get_mem dbobjs i h1
    obtain ⟨dn, hdn⟩ := Option.isSome_iff_exists.mp (hdb d hdmem)
    constructor
    · intro hnomatch
      have hro : reconcileOne d ovs = some (setKey d "visible" (.bool false)) := by
        apply reconcileOne_no_match d ovs dn hdn
        intro u hu
        obtain ⟨un, hun⟩ := Option.isSome_iff_exists.mp (hov u hu)
        refine ⟨un, hun, fun e => ?_⟩
        have h3 := hnomatch u hu
        rw [hun, hdn, e] at h3
        exact h3 rfl
      have hval : res.get ⟨i, h2⟩ = setKey d "visible" (.bool false) := by
        have h3 := hidx i h1 h2
        rw [hro] at h3
        exact (Option.some_injective _ h3).symm
      rw [hval, getKey?_setKey_self]
    · intro v hvmem hveq
      obtain ⟨s, t, heq⟩ := List.append_of_mem hvmem
      have hdist' := hdist
      rw [heq] at hdist'
      obtain ⟨ps, pvt, hcross⟩ := List.pairwise_append.mp hdist'
      have hvt := (List.pairwise_cons.mp pvt).1
      have hveq' : getKey? v "name" = some dn := by rw [hveq, hdn]
      have hro : reconcileOne d ovs =
          some (setKey (dictUpdate (setKey d "visible" (.bool false)) v)
            "visible" (.bool true)) := by
        rw [heq]
        apply reconcileOne_match d s t v dn hdn hveq' (hwf v hvmem)
        · intro u hu
          obtain ⟨un, hun⟩ := Option.isSome_iff_exists.mp (hov u (by rw [heq]; exact List.mem_append_left _ hu))
          refine ⟨un, hun, fun e => ?_⟩
          have h1 := hcross u hu v (List.mem_cons_self v t)
          rw [hun, hveq', e] at h1
          exact h1 rfl
        · intro u hu
          obtain ⟨un, hun⟩ := Option.isSome_iff_exists.mp (hov u
            (by rw [heq]; exact List.mem_append_right _ (List.mem_cons_of_mem v hu)))
          refine ⟨un, hun, fun e => ?_⟩
          have h1 := hvt u hu
          rw [hun, hveq', e] at h1
          exact h1 rfl
      have hval : res.get ⟨i, h2⟩ =
          setKey (dictUpdate (setKey d "visible" (.bool false)) v)
            "visible" (.bool true) := by
        have h3 := hidx i h1 h2
        rw [hro] at h3
        exact (Option.some_injective _ h3).symm
      constructor
      · rw [hval, getKey?_setKey_self]
      · intro k hk
        rw [hval, getKey?_setKey_ne _ _ _ _ hk,
          getKey?_dictUpdate _ _ _ (hwf v hvmem),
          getKey?_setKey_ne _ _ _ _ hk]
  · refine ⟨dbobjs.map fun d2 => setKey d2 "visible" (.bool true), ?_, ?_⟩
    · unfold reconcileObjects
      rw [if_neg (by simp)]
    · intro d2 hd2
      obtain ⟨d, _, rfl⟩ := List.mem_map.mp hd2
      rw [getKey?_setKey_self]

/-- Witness for C1 at the spec scenario: descriptors `A` (visible) and `B`
(hidden), one override recolouring `B`. -/
theorem viewonly_reconcile_witness :
    ∃ res, reconcileObjects exDb exOv = some res ∧ res.length = exDb.length ∧
      ∀ (i : Nat) (h1 : i < exDb.length) (h2 : i < res.length),
        ((∀ v ∈ exOv, getKey? v "name" ≠ getKey? (exDb.get ⟨i, h1⟩) "name") →
          getKey? (res.get ⟨i, h2⟩) "visible" = some (.bool false)) ∧
        (∀ v ∈ exOv, getKey? v "name" = getKey? (exDb.get ⟨i, h1⟩) "name" →
          getKey? (res.get ⟨i, h2⟩) "visible" = some (.bool true) ∧
          ∀ k, k ≠ "visible" →
            getKey? (res.get ⟨i, h2⟩) k =
              orElseO (getKey? v k) (getKey? (exDb.get ⟨i, h1⟩) k)) :=
  (viewonly_reconcile_spec exDb exOv (by decide) (by decide) (by decide)
    (by decide)).1 (by decide)

/-- C3: during `Store._generate`, an object whose properties lack a `name`
key is assigned `ColourBar_<o>` when its properties hold a truthy `colourbar`
entry and `<TypeTag>_<o>` otherwise, where `o` is the object's position in the
store's global accumulated list `self._objects` (the store list of the result,
not the active subset). -/
theorem default_name_assignment_spec (sys : Sys) (figname : String) (a : List Nat)
    (props : Props) (fuel : Nat)
    (hnd : (generateLive sys figname a props fuel).sys.store.Nodup)
    (o : Nat) (ho : o < (generateLive sys figname a props fuel).sys.store.length)
    (hun : hasKey
      (sys.heap ((generateLive sys figname a props fuel).sys.store.get ⟨o, ho⟩)).props
      "name" = false) :
    getKey? ((generateLive sys figname a props fuel).sys.heap
        ((generateLive sys figname a props fuel).sys.store.get ⟨o, ho⟩)).props "name"
      = some (.str (if truthyOpt (getKey?
            (sys.heap ((generateLive sys figname a props fuel).sys.store.get ⟨o, ho⟩)).props
            "colourbar")
          then "ColourBar_" ++ toString o
          else (sys.heap
              ((generateLive sys figname a props fuel).sys.store.get ⟨o, ho⟩)).typeTag.drop 3
            ++ "_" ++ toString o)) :=
  livePhase_default_name (mergeLoop fuel sys.heap a sys.store 0).heap sys.heap
    (mergeLoop fuel sys.heap a sys.store 0).store
    (mergeLoop fuel sys.heap a sys.store 0).active
    (fun j => mergeLoop_props fuel sys.heap a sys.store 0 j)
    (fun j => mergeLoop_typeTag fuel sys.heap a sys.store 0 j)
    hnd o ho hun

/-- Witness for C3: an unnamed `lucScalarField` at global position 0 is named
`ScalarField_0`. -/
theorem default_name_assignment_witness :
    getKey? ((generateLive exSys "fig" [0] [] 5).sys.heap
        ((generateLive exSys "fig" [0] [] 5).sys.store.get ⟨0, by decide⟩)).props "name"
      = some (.str "ScalarField_0") :=
  (default_name_assignment_spec exSys "fig" [0] [] 5 (by decide) 0 (by decide)
    (by decide)).trans (by decide)

/-- C4: a name already recorded in an object's properties is never changed by
a later `Store._generate`: the heap keeps the binding, and the emitted figure
state records the same name at the object's position. -/
theorem default_name_stable_spec (sys : Sys) (figname : String) (a : List Nat)
    (props : Props) (fuel : Nat) (id : Nat) (n : PVal)
    (hn : getKey? ((sys.heap id).props) "name" = some n) :
    getKey? (((generateLive sys figname a props fuel).sys.heap id).props) "name"
      = some n ∧
    ∀ (i : Nat) (h1 : i < (generateLive sys figname a props fuel).sys.store.length),
      (generateLive sys figname a props fuel).sys.store.get ⟨i, h1⟩ = id →
      ∀ (h2 : i < (generateLive sys figname a props fuel).state.objects.length),
        getKey? ((generateLive sys figname a props fuel).state.objects.get ⟨i, h2⟩) "name"
          = some n := by
  have hm : getKey? (((mergeLoop fuel sys.heap a sys.store 0).heap id).props) "name"
      = some n := by
    rw [mergeLoop_props]; exact hn
  have hkeep : getKey? (((generateLive sys figname a props fuel).sys.heap id).props) "name"
      = some n :=
    livePhase_keep_name (mergeLoop fuel sys.heap a sys.store 0).heap
      (mergeLoop fuel sys.heap a sys.store 0).store
      (mergeLoop fuel sys.heap a sys.store 0).active id n hm
  refine ⟨hkeep, ?_⟩
  intro i h1 hgeq h2
  have hget : (generateLive sys figname a props fuel).state.objects.get ⟨i, h2⟩
      = ((generateLive sys figname a props fuel).sys.heap
          ((generateLive sys figname a props fuel).sys.store.get ⟨i, h1⟩)).props := by
    exact List.get_map _
  rw [hget, hgeq]
  exact hkeep

/-- Witness for C4: the user-set name `A` of object 0 survives a render. -/
theorem default_name_stable_witness :
    getKey? (((generateLive exSysNamed "fig" [0] [] 5).sys.heap 0).props) "name"
      = some (.str "A") :=
  (default_name_stable_spec exSysNamed "fig" [0] [] 5 0 (.str "A") (by decide)).1

/-- C5: after live-mode `Store._generate`, every object of the store's global
list ends with `visible` equal to the formula of line 215: the object is in
the figure's final active list, or its declared parent is. -/
theorem live_visibility_spec (sys : Sys) (figname : String) (a : List Nat)
    (props : Props) (fuel : Nat) (id : Nat)
    (hid : id ∈ (generateLive sys figname a props fuel).sys.store) :
    getKey? (((generateLive sys figname a props fuel).sys.heap id).props) "visible"
      = some (.bool (visFlag (generateLive sys figname a props fuel).sys.heap
          (generateLive sys figname a props fuel).active id)) :=
  livePhase_visible (mergeLoop fuel sys.heap a sys.store 0).heap
    (mergeLoop fuel sys.heap a sys.store 0).store
    (mergeLoop fuel sys.heap a sys.store 0).active id hid

/-- Witness for C5: the single active object is marked visible. -/
theorem live_visibility_witness :
    getKey? (((generateLive exSys "fig" [0] [] 5).sys.heap 0).props) "visible"
      = some (.bool true) :=
  (live_visibility_spec exSys "fig" [0] [] 5 0 (by decide)).trans (by decide)

/-- C7: live-mode `Store._generate` is idempotent: re-rendering the same
figure name with the same active object list and the same figure properties
produces a figure state equal to the first one (the model carries no
timestep, so the equality is unconditional). -/
theorem live_generate_idempotent_spec (sys : Sys) (figname : String) (a : List Nat)
    (props : Props) (fuel : Nat) :
    (generateLive (generateLive sys figname a props fuel).sys figname a props fuel).state
      = (generateLive sys figname a props fuel).state := by
  obtain ⟨h0, s0⟩ := sys
  have hstate1 : (generateLive ⟨h0, s0⟩ figname a props fuel).state
      = get_state
          (livePhase (mergeLoop fuel h0 a s0 0).heap (mergeLoop fuel h0 a s0 0).store
            (mergeLoop fuel h0 a s0 0).active)
          (mergeLoop fuel h0 a s0 0).store figname props := rfl
  have hsys1 : (generateLive ⟨h0, s0⟩ figname a props fuel).sys
      = ⟨livePhase (mergeLoop fuel h0 a s0 0).heap (mergeLoop fuel h0 a s0 0).store
            (mergeLoop fuel h0 a s0 0).active,
         (mergeLoop fuel h0 a s0 0).store⟩ := rfl
  rw [hstate1, hsys1]
  -- Notation for the first run.
  generalize hm1 : mergeLoop fuel h0 a s0 0 = m1 at *
  generalize hhN : assignNames m1.heap m1.store = hN
  have hh3def : livePhase m1.heap m1.store m1.active = visLoop m1.active hN m1.store := by
    rw [← hhN]; rfl
  rw [hh3def]
  generalize hh3 : visLoop m1.active hN m1.store = h3
  -- The second run's merge loop.
  have hstate2 : (generateLive ⟨h3, m1.store⟩ figname a props fuel).state
      = get_state
          (livePhase (mergeLoop fuel h3 a m1.store 0).heap
            (mergeLoop fuel h3 a m1.store 0).store
            (mergeLoop fuel h3 a m1.store 0).active)
          (mergeLoop fuel h3 a m1.store 0).store figname props := rfl
  rw [hstate2]
  generalize hm2 : mergeLoop fuel h3 a m1.store 0 = m2
  -- The merge loop reads only colour-bar fields, which the whole first run
  -- preserves.
  have hcbPh : cbEq h0 h3 := by
    intro id
    rw [← hh3, visLoop_colourBar, ← hhN, assignNames_eq, nameLoop_colourBar, ← hm1,
      mergeLoop_colourBar]
  have hcong := mergeLoop_cong fuel h0 h3 a s0 m1.store 0 hcbPh
  rw [hm1, hm2] at hcong
  obtain ⟨hact, _, _, hpar⟩ := hcong
  have hstore : m2.store = m1.store := by
    have hst := mergeLoop_store_stable fuel h0 h3 a s0 0 hcbPh
    rw [hm1, hm2] at hst
    exact hst
  -- Parents after the second merge loop agree with those after the first.
  have hparFin : ∀ id, (m2.heap id).parent = (m1.heap id).parent := by
    intro id
    rcases hpar id with he | ⟨e1, e2⟩
    · exact he.symm
    · rw [e2, ← hh3, visLoop_parent, ← hhN, assignNames_eq, nameLoop_parent, e1]
  -- Properties after the second merge loop are those left by the first run.
  have hprops2 : ∀ id, (m2.heap id).props = (h3 id).props := by
    intro id
    rw [← hm2, mergeLoop_props]
  -- After the first run every stored object is named.
  have hnamed : ∀ id ∈ m1.store, hasKey ((h3 id).props) "name" = true := by
    intro id hid
    have h1 : hasKey ((hN id).props) "name" = true := by
      rw [← hhN, assignNames_eq]
      exact nameLoop_named m1.store m1.heap 0 id hid
    rw [← hh3, visLoop_char, if_pos hid]
    show hasKey (setKey ((hN id).props) "visible" (.bool (visFlag hN m1.active id)))
      "name" = true
    rw [hasKey_setKey_ne _ _ _ _ (by decide)]
    exact h1
  -- Hence the second naming pass is the identity.
  have hnoop : assignNames m2.heap m2.store = m2.heap := by
    rw [assignNames_eq]
    apply nameLoop_noop
    intro id hid
    rw [hstore] at hid
    rw [hprops2 id]
    exact hnamed id hid
  have hlive2 : livePhase m2.heap m2.store m2.active = visLoop m1.active m2.heap m1.store := by
    unfold livePhase
    rw [hnoop, hstore, ← hact]
  rw [hlive2, hstore]
  -- The two figure states agree objectwise.
  unfold get_state
  refine congrArg (fun o => FigureState.mk figname props [props] o) ?_
  apply List.map_congr_left
  intro id hid
  rw [visLoop_char, if_pos hid]
  show setKey ((m2.heap id).props) "visible" (.bool (visFlag m2.heap m1.active id))
    = (h3 id).props
  have hflag : visFlag m2.heap m1.active id = visFlag hN m1.active id := by
    apply visFlag_congr
    rw [hparFin id, ← hhN, assignNames_eq, nameLoop_parent]
  have hchar : (h3 id).props
      = setKey ((hN id).props) "visible" (.bool (visFlag hN m1.active id)) := by
    rw [← hh3, visLoop_char, if_pos hid]
  rw [hprops2 id, hflag, hchar, setKey_idem]

end Glucifer
